import Mathlib

/-!
# Verification of the nimfa2 ICM factorization core

Shallow embedding of `src/nimfa2/methods/factorization/icm.py` (class `Icm`):
the convergence monitor `is_satisfied`, the block-coordinate `update` rule,
the `objective` function and the multi-run orchestration in `factorize`.

Modelling conventions:
* Python floats are embedded as rationals (`ℚ`); `sys.float_info.max` is the
  exact value of the IEEE-754 double maximum, and `np.finfo(..).eps` the exact
  float64 machine epsilon.
* Matrices are `Matrix (Fin m) (Fin n) ℚ` (dense representation; the sparse
  branch writes the same values entry by entry).
* The linear-algebra primitives (`dot`, `multiply`, `power`, scalar division,
  elementwise max) live in `nimfa2.utils.linalg`, which is not part of the
  sources; they are modelled from the spec's LinAlg contract (§2).
* Truthiness of stopping parameters (`max_iter`, `min_residuals`, `test_conv`)
  is modelled by `≠ 0`; `None` and `0` are both falsy in the source and behave
  identically in every guard, so both are encoded as `0`.
-/

set_option maxRecDepth 1000000

namespace Nimfa2.Icm

/-- `sys.float_info.max`, the sentinel used to initialise `p_obj`, `c_obj`
and `best_obj` in `Icm.factorize` (line 183): the largest IEEE-754 double,
`(2 - 2⁻⁵²) · 2¹⁰²³`. -/
def fMax : ℚ := ((2 ^ 1024 - 2 ^ 971 : ℕ) : ℚ)

/-- `np.finfo(dtype).eps` for float64, the guard added to the denominator in
`Icm.update` (lines 251 and 273): `2⁻⁵²`. -/
def eps : ℚ := 1 / 2 ^ 52

/-- The stopping parameters of `Icm.__init__` that drive `is_satisfied`.
`max_iter = 0` and `test_conv = 0` encode falsy values (`0` or `None`);
`min_residuals = 0` encodes falsy `0.0` or `None`. -/
structure Cfg where
  max_iter : ℕ
  min_residuals : ℚ
  test_conv : ℕ
deriving Repr, DecidableEq

/-- `Icm.is_satisfied` (icm.py lines 218-240): the convergence monitor.
Returns `true` when the factorization loop should continue.  The four guards
are, in source order: the `max_iter` cap, the `test_conv` skip rule, the
`min_residuals` minimal-improvement test and the monotonicity test. -/
def is_satisfied (cfg : Cfg) (p_obj c_obj : ℚ) (iter : ℕ) : Bool :=
  if cfg.max_iter ≠ 0 ∧ cfg.max_iter ≤ iter then false
  else if cfg.test_conv ≠ 0 ∧ iter % cfg.test_conv ≠ 0 then true
  else if cfg.min_residuals ≠ 0 ∧ 0 < iter ∧ p_obj - c_obj < cfg.min_residuals then
    false
  else if 0 < iter ∧ c_obj > p_obj then false
  else true

/-- The state carried by one run's `while` loop in `Icm.factorize`
(lines 183-198): the mutable factorization state `st` (W, H, sigma), the
previous and current objective values and the iteration counter. -/
structure LoopSt (St : Type) where
  st : St
  p_obj : ℚ
  c_obj : ℚ
  iter : ℕ

/-- One execution of the loop body of `Icm.factorize` (lines 192-196):
refresh `p_obj` from `c_obj` on test rounds, apply the update rule,
increment the counter, recompute the objective on test rounds and keep the
stale value otherwise. -/
def bodyStep {St : Type} (cfg : Cfg) (upd : St → St) (objf : St → ℚ)
    (s : LoopSt St) : LoopSt St :=
  let p := if cfg.test_conv = 0 ∨ s.iter % cfg.test_conv = 0 then s.c_obj else s.p_obj
  let st1 := upd s.st
  let it := s.iter + 1
  let c := if cfg.test_conv = 0 ∨ it % cfg.test_conv = 0 then objf st1 else s.c_obj
  ⟨st1, p, c, it⟩

/-- The `while self.is_satisfied(p_obj, c_obj, iter)` loop of `Icm.factorize`
(lines 191-198), run with explicit fuel: the loop stops as soon as the
monitor returns `false`, and is cut off after `fuel` body executions. -/
def loopRun {St : Type} (cfg : Cfg) (upd : St → St) (objf : St → ℚ) :
    ℕ → LoopSt St → LoopSt St
  | 0, s => s
  | fuel + 1, s =>
    if is_satisfied cfg s.p_obj s.c_obj s.iter then
      loopRun cfg upd objf fuel (bodyStep cfg upd objf s)
    else s

/-- Modelled from the spec: `multiply` from `nimfa2.utils.linalg` (LinAlg,
spec §2) — elementwise (Hadamard) product, used as `multiply(V, V)` in
`factorize` (line 178) and in the sigma update (line 264). -/
def multiply {m n : ℕ} (X Y : Matrix (Fin m) (Fin n) ℚ) : Matrix (Fin m) (Fin n) ℚ :=
  Matrix.of fun i j => X i j * Y i j

/-- Modelled from the spec: `power` from `nimfa2.utils.linalg` (LinAlg,
spec §2) — elementwise power, used in `objective` (line 288). -/
def power {m n : ℕ} (X : Matrix (Fin m) (Fin n) ℚ) (e : ℕ) : Matrix (Fin m) (Fin n) ℚ :=
  Matrix.of fun i j => X i j ^ e

/-- Modelled from the spec: `.sum()` (LinAlg, spec §2) — the sum of all
entries of a matrix. -/
def matSum {m n : ℕ} (X : Matrix (Fin m) (Fin n) ℚ) : ℚ :=
  ∑ i, ∑ j, X i j

/-- `self.v` in `Icm.factorize` (line 178):
`multiply(self.V, self.V).sum() / 2.`. -/
def vHalf {m n : ℕ} (V : Matrix (Fin m) (Fin n) ℚ) : ℚ :=
  matSum (multiply V V) / 2

/-- The numerator `op1` of the basis-matrix column update in `Icm.update`
(line 250): `D[:, n] - dot(W[:, nn], C[nn, n]) - sigma * alpha[:, n]`, where
`nn` lists every component index other than `n`. -/
def numerW {m r : ℕ} (D : Matrix (Fin m) (Fin r) ℚ) (C : Matrix (Fin r) (Fin r) ℚ)
    (alpha : Matrix (Fin m) (Fin r) ℚ) (sigma : ℚ) (W : Matrix (Fin m) (Fin r) ℚ)
    (nc : Fin r) : Fin m → ℚ :=
  fun i => D i nc - (∑ kc ∈ Finset.univ.erase nc, W i kc * C kc nc) - sigma * alpha i nc

/-- One column update of W in `Icm.update` (lines 248-257): the column `nc`
is overwritten with `max(op1 / op2, 0)` where `op2 = C[n, n] + eps`; all
other columns are unchanged (the sparse branch writes the same values
entry by entry). -/
def updateW_col {m r : ℕ} (C : Matrix (Fin r) (Fin r) ℚ) (D : Matrix (Fin m) (Fin r) ℚ)
    (alpha : Matrix (Fin m) (Fin r) ℚ) (sigma : ℚ) (W : Matrix (Fin m) (Fin r) ℚ)
    (nc : Fin r) : Matrix (Fin m) (Fin r) ℚ :=
  let op2 := C nc nc + eps
  Matrix.of fun i kc =>
    if kc = nc then max (numerW D C alpha sigma W nc i / op2) 0 else W i kc

/-- The inner W loop of `Icm.update` (lines 247-257): `iiter` passes, each
updating the columns `0, …, rank-1` in order. -/
def updateW {m r : ℕ} (C : Matrix (Fin r) (Fin r) ℚ) (D : Matrix (Fin m) (Fin r) ℚ)
    (alpha : Matrix (Fin m) (Fin r) ℚ) (sigma : ℚ) (iiter : ℕ)
    (W : Matrix (Fin m) (Fin r) ℚ) : Matrix (Fin m) (Fin r) ℚ :=
  (fun Wc => (List.finRange r).foldl (updateW_col C D alpha sigma) Wc)^[iiter] W

/-- The numerator `op1` of the mixture-matrix row update in `Icm.update`
(line 272): `F[n, :] - dot(E[n, nn], H[nn, :]) - sigma * beta[n, :]`. -/
def numerH {r n : ℕ} (F : Matrix (Fin r) (Fin n) ℚ) (E : Matrix (Fin r) (Fin r) ℚ)
    (beta : Matrix (Fin r) (Fin n) ℚ) (sigma : ℚ) (H : Matrix (Fin r) (Fin n) ℚ)
    (nc : Fin r) : Fin n → ℚ :=
  fun j => F nc j - (∑ kc ∈ Finset.univ.erase nc, E nc kc * H kc j) - sigma * beta nc j

/-- One row update of H in `Icm.update` (lines 270-279): the row `nc` is
overwritten with `max(op1 / op2, 0)` where `op2 = E[n, n] + eps`. -/
def updateH_row {r n : ℕ} (E : Matrix (Fin r) (Fin r) ℚ) (F : Matrix (Fin r) (Fin n) ℚ)
    (beta : Matrix (Fin r) (Fin n) ℚ) (sigma : ℚ) (H : Matrix (Fin r) (Fin n) ℚ)
    (nc : Fin r) : Matrix (Fin r) (Fin n) ℚ :=
  let op2 := E nc nc + eps
  Matrix.of fun a j =>
    if a = nc then max (numerH F E beta sigma H nc j / op2) 0 else H a j

/-- The inner H loop of `Icm.update` (lines 269-279): `iiter` passes, each
updating the rows `0, …, rank-1` in order. -/
def updateH {r n : ℕ} (E : Matrix (Fin r) (Fin r) ℚ) (F : Matrix (Fin r) (Fin n) ℚ)
    (beta : Matrix (Fin r) (Fin n) ℚ) (sigma : ℚ) (iiter : ℕ)
    (H : Matrix (Fin r) (Fin n) ℚ) : Matrix (Fin r) (Fin n) ℚ :=
  (fun Hc => (List.finRange r).foldl (updateH_row E F beta sigma) Hc)^[iiter] H

/-- The sigma update of `Icm.update` (lines 264-265):
`(theta + v + multiply(W, dot(W, C) - 2 * D).sum() / 2) /
 (V.shape[0] * V.shape[1] / 2. + k + 1.)`, with `nd` the column count of V. -/
def sigmaUpdate {m r : ℕ} (nd : ℕ) (theta kp v : ℚ) (W : Matrix (Fin m) (Fin r) ℚ)
    (C : Matrix (Fin r) (Fin r) ℚ) (D : Matrix (Fin m) (Fin r) ℚ) : ℚ :=
  (theta + v + matSum (multiply W (W * C - (2 : ℚ) • D)) / 2) /
    ((m : ℚ) * (nd : ℚ) / 2 + kp + 1)

/-- The mutable per-run factorization state of `Icm`: the basis matrix `W`,
the mixture matrix `H` and the noise scalar `sigma`. -/
structure RunSt (m r n : ℕ) where
  W : Matrix (Fin m) (Fin r) ℚ
  H : Matrix (Fin r) (Fin n) ℚ
  sigma : ℚ

/-- `Icm.update` (lines 242-284): one full outer sweep.  `C = H·Hᵗ` and
`D = V·Hᵗ` are computed from the incoming H; W is updated with the incoming
sigma; sigma is then updated from the new W and the old-H `C`, `D`; finally
`E = Wᵗ·W`, `F = Wᵗ·V` are computed from the new W and H is updated with the
new sigma. -/
def update {m r n : ℕ} (V : Matrix (Fin m) (Fin n) ℚ) (alpha : Matrix (Fin m) (Fin r) ℚ)
    (beta : Matrix (Fin r) (Fin n) ℚ) (theta kp : ℚ) (iiter : ℕ) (v : ℚ)
    (st : RunSt m r n) : RunSt m r n :=
  let C := st.H * st.H.transpose
  let D := V * st.H.transpose
  let W1 := updateW C D alpha st.sigma iiter st.W
  let sigma1 := sigmaUpdate n theta kp v W1 C D
  let E := W1.transpose * W1
  let F := W1.transpose * V
  let H1 := updateH E F beta sigma1 iiter st.H
  ⟨W1, H1, sigma1⟩

/-- `Icm.objective` (lines 286-288): `power(self.V - dot(self.W, self.H), 2).sum()`,
the squared Frobenius norm of the residual. -/
def objective {m r n : ℕ} (V : Matrix (Fin m) (Fin n) ℚ)
    (W : Matrix (Fin m) (Fin r) ℚ) (H : Matrix (Fin r) (Fin n) ℚ) : ℚ :=
  matSum (power (V - W * H) 2)

/-- The session-level parameters of `Icm.__init__` used by `factorize`.
`sigma` is the initial noise value (default 1); it is carried across runs,
as in the source, where `self.sigma` is never reset per run. -/
structure Session (m r n : ℕ) where
  V : Matrix (Fin m) (Fin n) ℚ
  alpha : Matrix (Fin m) (Fin r) ℚ
  beta : Matrix (Fin r) (Fin n) ℚ
  theta : ℚ
  k : ℚ
  sigma : ℚ
  iiter : ℕ
  cfg : Cfg
  n_run : ℕ
  track_factor : Bool
  track_error : Bool

/-- `Icm.__init__` (lines 169-170): the tracker is constructed only when
`track_factor and n_run > 1 or track_error` holds; otherwise it is `None`. -/
def trackerSome {m r n : ℕ} (s : Session m r n) : Bool :=
  (s.track_factor && decide (1 < s.n_run)) || s.track_error

/-- A fitted-model snapshot (`mf_fit.Mf_fit(copy.deepcopy(self))`,
line 213): the run's factors, sigma, final objective and iteration count. -/
structure Model (m r n : ℕ) where
  W : Matrix (Fin m) (Fin r) ℚ
  H : Matrix (Fin r) (Fin n) ℚ
  sigma : ℚ
  final_obj : ℚ
  n_iter : ℕ

/-- One run of the body of the `for run in range(self.n_run)` loop of
`Icm.factorize` (lines 180-206), up to and excluding the best-model check:
seed W and H, run the iteration loop, then execute the tracking accesses.
`self.tracker.track_error` (line 198) is dereferenced inside the loop body
and `self.tracker.track_factor` (line 205) after the loop; either raises an
`AttributeError` when the tracker is `None`. -/
def runOnce {m r n : ℕ} (s : Session m r n) (seedW : ℕ → Matrix (Fin m) (Fin r) ℚ)
    (seedH : ℕ → Matrix (Fin r) (Fin n) ℚ) (fuel run : ℕ) (sigma : ℚ) :
    Except String (Model m r n) :=
  let st0 : RunSt m r n := ⟨seedW run, seedH run, sigma⟩
  if s.track_error && !trackerSome s && decide (1 ≤ fuel) then
    Except.error "AttributeError: NoneType has no attribute track_error"
  else
    let fin := loopRun s.cfg (update s.V s.alpha s.beta s.theta s.k s.iiter (vHalf s.V))
      (fun st => objective s.V st.W st.H) fuel ⟨st0, fMax, fMax, 0⟩
    if s.track_factor && !trackerSome s then
      Except.error "AttributeError: NoneType has no attribute track_factor"
    else
      Except.ok ⟨fin.st.W, fin.st.H, fin.st.sigma, fin.c_obj, fin.iter⟩

/-- The run loop of `Icm.factorize` (lines 180-213) threading
`(sigma, best_obj, best model)`: a run's model replaces the current best when
`c_obj <= best_obj or run == 0` (line 209). -/
def runFold {m r n : ℕ} (s : Session m r n) (seedW : ℕ → Matrix (Fin m) (Fin r) ℚ)
    (seedH : ℕ → Matrix (Fin r) (Fin n) ℚ) (fuel : ℕ) :
    List ℕ → ℚ × ℚ × Option (Model m r n) →
      Except String (ℚ × ℚ × Option (Model m r n))
  | [], acc => Except.ok acc
  | run :: rest, (sigma, bObj, best) =>
    match runOnce s seedW seedH fuel run sigma with
    | Except.error e => Except.error e
    | Except.ok mdl =>
      if mdl.final_obj ≤ bObj ∨ run = 0 then
        runFold s seedW seedH fuel rest (mdl.sigma, mdl.final_obj, some mdl)
      else
        runFold s seedW seedH fuel rest (mdl.sigma, bObj, best)

/-- `Icm.factorize` (lines 172-216): run `n_run` runs, select the best model,
and return it.  The iteration loops are cut off after `fuel` bodies; with
`max_iter = M ≥ 1` and `fuel ≥ M` the cut-off is never reached.  When
`n_run = 0`, `mffit` is never assigned and line 215 raises a `NameError`. -/
def factorize {m r n : ℕ} (s : Session m r n) (seedW : ℕ → Matrix (Fin m) (Fin r) ℚ)
    (seedH : ℕ → Matrix (Fin r) (Fin n) ℚ) (fuel : ℕ) : Except String (Model m r n) :=
  match runFold s seedW seedH fuel (List.range s.n_run) (s.sigma, fMax, none) with
  | Except.error e => Except.error e
  | Except.ok (_, _, none) => Except.error "NameError: mffit is not defined"
  | Except.ok (_, _, some b) => Except.ok b

/-- The best-model selection state machine of `Icm.factorize` in isolation
(lines 183-184 and 209-213), on the per-run final objective values: carry
`(best_obj, best run index)`, replacing when `c_obj <= best_obj or run == 0`.
Returns the index of the retained run. -/
def bestRun : List ℚ → ℕ → ℚ → ℕ → ℕ
  | [], _, _, bi => bi
  | o :: rest, i, b, bi =>
    if o ≤ b ∨ i = 0 then bestRun rest (i + 1) o i else bestRun rest (i + 1) b bi

/-- The index of the run retained by `Icm.factorize` given the list of the
runs' final objective values, starting from the sentinel best `fMax`. -/
def selectBest (objs : List ℚ) : ℕ := bestRun objs 0 fMax 0

/-! ## Helper lemmas about the convergence monitor and the loop -/

/-- The monitor always continues at iteration 0: the cap guard cannot fire
(`max_iter ≤ 0` forces the falsy `max_iter = 0`), `0 % test_conv = 0`, and
both objective tests require `iter > 0`. -/
theorem is_satisfied_iter_zero (cfg : Cfg) (p c : ℚ) :
    is_satisfied cfg p c 0 = true := by
  simp [is_satisfied, Nat.le_zero]

/-- If the monitor continues and the cap is set, the counter is below it. -/
theorem lt_cap_of_is_satisfied {cfg : Cfg} {p c : ℚ} {i : ℕ}
    (h : is_satisfied cfg p c i = true) (hM : cfg.max_iter ≠ 0) :
    i < cfg.max_iter := by
  by_contra hlt
  push_neg at hlt
  simp [is_satisfied, hM, hlt] at h

/-- The loop counter never exceeds a set cap: invariant form. -/
theorem loopRun_iter_le {St : Type} (cfg : Cfg) (upd : St → St) (objf : St → ℚ)
    (hM : cfg.max_iter ≠ 0) :
    ∀ (fuel : ℕ) (s : LoopSt St), s.iter ≤ cfg.max_iter →
      (loopRun cfg upd objf fuel s).iter ≤ cfg.max_iter := by
  intro fuel
  induction fuel with
  | zero => intro s hs; exact hs
  | succ f ih =>
    intro s hs
    rw [loopRun]
    by_cases hsat : is_satisfied cfg s.p_obj s.c_obj s.iter = true
    · rw [if_pos hsat]
      exact ih _ (Nat.succ_le_of_lt (lt_cap_of_is_satisfied hsat hM))
    · rw [if_neg (by simpa using hsat)]
      exact hs

/-- With fuel covering the distance to the cap, the loop reaches a state
where the monitor reports stop. -/
theorem loopRun_reaches_stop {St : Type} (cfg : Cfg) (upd : St → St) (objf : St → ℚ)
    (hM : cfg.max_iter ≠ 0) :
    ∀ (fuel : ℕ) (s : LoopSt St), cfg.max_iter ≤ s.iter + fuel →
      is_satisfied cfg (loopRun cfg upd objf fuel s).p_obj
        (loopRun cfg upd objf fuel s).c_obj
        (loopRun cfg upd objf fuel s).iter = false := by
  intro fuel
  induction fuel with
  | zero =>
    intro s hs
    rw [loopRun]
    have : ¬ is_satisfied cfg s.p_obj s.c_obj s.iter = true := by
      intro h
      exact absurd (lt_cap_of_is_satisfied h hM) (by omega)
    simpa using this
  | succ f ih =>
    intro s hs
    rw [loopRun]
    by_cases hsat : is_satisfied cfg s.p_obj s.c_obj s.iter = true
    · rw [if_pos hsat]
      exact ih _ (by simp [bodyStep]; omega)
    · rw [if_neg (by simpa using hsat)]
      simpa using hsat

/-- C4: `max_iter` is a hard ceiling and the sole bounded-termination
guarantee.  For every configuration with `max_iter = M ≥ 1`, arbitrary
`min_residuals`, `test_conv`, update rule and objective sequence, starting
from iteration 0: the final iteration count never exceeds `M` whatever the
fuel, and within `M` loop bodies the monitor reports stop (the loop has
terminated), because the cap guard is checked before the `test_conv` skip
rule. -/
theorem C4_max_iter_hard_ceiling {St : Type} (upd : St → St) (objf : St → ℚ)
    (M : ℕ) (hM : 1 ≤ M) (mr : ℚ) (tc : ℕ) (s0 : LoopSt St) (h0 : s0.iter = 0) :
    (∀ fuel, (loopRun ⟨M, mr, tc⟩ upd objf fuel s0).iter ≤ M) ∧
    is_satisfied ⟨M, mr, tc⟩ (loopRun ⟨M, mr, tc⟩ upd objf M s0).p_obj
      (loopRun ⟨M, mr, tc⟩ upd objf M s0).c_obj
      (loopRun ⟨M, mr, tc⟩ upd objf M s0).iter = false := by
  have hM0 : (⟨M, mr, tc⟩ : Cfg).max_iter ≠ 0 := by simp; omega
  constructor
  · intro fuel
    exact loopRun_iter_le _ upd objf hM0 fuel s0 (by simp [h0])
  · exact loopRun_reaches_stop _ upd objf hM0 M s0 (by simp [h0])

/-- C4 witness: a concrete instantiation (constant objective, `M = 3`,
unset `min_residuals`, `test_conv = 2`, start at iteration 0). -/
theorem C4_witness :
    (∀ fuel, (loopRun ⟨3, 0, 2⟩ (id : Unit → Unit) (fun _ => 1) fuel
        ⟨(), fMax, fMax, 0⟩).iter ≤ 3) ∧
    is_satisfied ⟨3, 0, 2⟩
      (loopRun ⟨3, 0, 2⟩ (id : Unit → Unit) (fun _ => 1) 3 ⟨(), fMax, fMax, 0⟩).p_obj
      (loopRun ⟨3, 0, 2⟩ (id : Unit → Unit) (fun _ => 1) 3 ⟨(), fMax, fMax, 0⟩).c_obj
      (loopRun ⟨3, 0, 2⟩ (id : Unit → Unit) (fun _ => 1) 3 ⟨(), fMax, fMax, 0⟩).iter
      = false :=
  C4_max_iter_hard_ceiling (id : Unit → Unit) (fun _ => 1) 3 (by decide) 0 2
    ⟨(), fMax, fMax, 0⟩ rfl

/-- C10: zero-valued stopping parameters are treated as unset via
truthiness short-circuits.  (1) `max_iter = 0` disables the cap: the monitor
behaves exactly as under a cap that has not yet been reached.  (2) With
`min_residuals = 0` the minimal-improvement test is disabled: whenever the
monotonicity test does not fire and the cap is unreached, the monitor
continues, for any `test_conv` (arbitrarily small improvements included).
(3) With `test_conv = 0` the skip guard short-circuits before the modulo
(no modulo-by-zero) and the objective tests apply on every iteration: a
monotonicity violation stops the loop at any index.  (4) With
`test_conv = 0` the loop body recomputes the objective and refreshes the
previous objective on every iteration. -/
theorem C10_zero_params_unset :
    (∀ (mr : ℚ) (tc : ℕ) (p c : ℚ) (i : ℕ),
      is_satisfied ⟨0, mr, tc⟩ p c i = is_satisfied ⟨i + 1, mr, tc⟩ p c i)
    ∧ (∀ (mi tc : ℕ) (p c : ℚ) (i : ℕ), 0 < i → ¬ c > p → (mi = 0 ∨ i < mi) →
      is_satisfied ⟨mi, 0, tc⟩ p c i = true)
    ∧ (∀ (mi : ℕ) (mr p c : ℚ) (i : ℕ), 0 < i → c > p → (mi = 0 ∨ i < mi) →
      is_satisfied ⟨mi, mr, 0⟩ p c i = false)
    ∧ (∀ (St : Type) (upd : St → St) (objf : St → ℚ) (mi : ℕ) (mr : ℚ)
        (s : LoopSt St),
      (bodyStep ⟨mi, mr, 0⟩ upd objf s).c_obj = objf (upd s.st)
      ∧ (bodyStep ⟨mi, mr, 0⟩ upd objf s).p_obj = s.c_obj) := by
  refine ⟨?_, ?_, ?_, ?_⟩
  · intro mr tc p c i
    have h1 : ¬ ((0 : ℕ) ≠ 0 ∧ 0 ≤ i) := by simp
    have h2 : ¬ (i + 1 ≠ 0 ∧ i + 1 ≤ i) := by omega
    simp only [is_satisfied]
    rw [if_neg h1, if_neg h2]
  · intro mi tc p c i hi hcp hcap
    by_cases hskip : tc ≠ 0 ∧ i % tc ≠ 0
    · simp only [is_satisfied]
      rw [if_neg (by omega), if_pos hskip]
    · simp only [is_satisfied]
      rw [if_neg (by omega), if_neg hskip, if_neg (by simp), if_neg (by tauto)]
  · intro mi mr p c i hi hcp hcap
    by_cases hmr : mr ≠ 0 ∧ 0 < i ∧ p - c < mr
    · simp only [is_satisfied]
      rw [if_neg (by omega), if_neg (by omega), if_pos hmr]
    · simp only [is_satisfied]
      rw [if_neg (by omega), if_neg (by omega), if_neg hmr, if_pos ⟨hi, hcp⟩]
  · intro St upd objf mi mr s
    constructor <;> simp [bodyStep]

/-- C10 witness: concrete instantiations of each conjunct.  The states
`(p, c) = (5, 5)` (stalled objective, continue with `min_residuals = 0`) and
`(p, c) = (3, 4)` (worsening objective, stop with `test_conv = 0`). -/
theorem C10_witness :
    is_satisfied ⟨0, 1, 2⟩ 5 4 7 = is_satisfied ⟨8, 1, 2⟩ 5 4 7
    ∧ is_satisfied ⟨10, 0, 3⟩ 5 5 6 = true
    ∧ is_satisfied ⟨10, 1/2, 0⟩ 3 4 5 = false
    ∧ (bodyStep ⟨10, 1/2, 0⟩ (id : Unit → Unit) (fun _ => 9) ⟨(), 5, 4, 7⟩).c_obj = 9
    ∧ (bodyStep ⟨10, 1/2, 0⟩ (id : Unit → Unit) (fun _ => 9) ⟨(), 5, 4, 7⟩).p_obj = 4 :=
  ⟨C10_zero_params_unset.1 1 2 5 4 7,
   C10_zero_params_unset.2.1 10 3 5 5 6 (by decide) (by norm_num) (by decide),
   C10_zero_params_unset.2.2.1 10 (1/2) 3 4 5 (by decide) (by norm_num) (by decide),
   (C10_zero_params_unset.2.2.2 Unit id (fun _ => 9) 10 (1/2) ⟨(), 5, 4, 7⟩).1,
   (C10_zero_params_unset.2.2.2 Unit id (fun _ => 9) 10 (1/2) ⟨(), 5, 4, 7⟩).2⟩

/-- Chaining lemma: if the trajectory `T` satisfies the loop guard and steps
to its successor for `a` steps, running the loop with `a + f` fuel from
`T 0` equals running it with `f` fuel from `T a`. -/
theorem loopRun_chain {St : Type} (cfg : Cfg) (upd : St → St) (objf : St → ℚ) :
    ∀ (a : ℕ) (T : ℕ → LoopSt St),
      (∀ i, i < a → is_satisfied cfg (T i).p_obj (T i).c_obj (T i).iter = true
        ∧ bodyStep cfg upd objf (T i) = T (i + 1)) →
      ∀ f, loopRun cfg upd objf (a + f) (T 0) = loopRun cfg upd objf f (T a) := by
  intro a
  induction a with
  | zero => intro T _ f; rw [Nat.zero_add]
  | succ a ih =>
    intro T hT f
    have h0 := hT 0 (by omega)
    have hrw : a + 1 + f = (a + f) + 1 := by omega
    rw [hrw, loopRun, if_pos h0.1, h0.2]
    exact ih (fun i => T (i + 1)) (fun i hi => hT (i + 1) (by omega)) f

/-- The canonical trajectory of one run's loop when `test_conv` is unset:
after `j` bodies the state holds `upd^[j]` of the seed, the objective of the
previous iterate as `p_obj` (the sentinel `fMax` for `j ≤ 1`), the objective
of the current iterate as `c_obj`, and counter `j`. -/
def stopTraj {St : Type} (upd : St → St) (objf : St → ℚ) (st0 : St) (j : ℕ) :
    LoopSt St :=
  if j = 0 then ⟨st0, fMax, fMax, 0⟩
  else ⟨upd^[j] st0, if j = 1 then fMax else objf (upd^[j - 1] st0),
        objf (upd^[j] st0), j⟩

/-- C6: the objective-based stopping rules of `is_satisfied`.  On a tested
round with `iter > 0` and the cap unreached: (1) when `min_residuals` is set
and the improvement `p_obj - c_obj` falls below it, the monitor stops;
(2) when the objective worsens (`c_obj > p_obj`), the monitor stops;
(3) at iteration 0 neither test applies and the monitor continues
unconditionally.  (4) Consequently, in a run with `test_conv` and
`min_residuals` unset and the cap above `k + 1`, if the objective sequence
first worsens at iteration `k + 1`, the loop stops with `n_iter = k + 1`. -/
theorem C6_objective_stopping_rule :
    (∀ (cfg : Cfg) (p c : ℚ) (i : ℕ), 0 < i → cfg.min_residuals ≠ 0 →
      p - c < cfg.min_residuals → (cfg.max_iter = 0 ∨ i < cfg.max_iter) →
      ¬ (cfg.test_conv ≠ 0 ∧ i % cfg.test_conv ≠ 0) →
      is_satisfied cfg p c i = false)
    ∧ (∀ (cfg : Cfg) (p c : ℚ) (i : ℕ), 0 < i → c > p →
      (cfg.max_iter = 0 ∨ i < cfg.max_iter) →
      ¬ (cfg.test_conv ≠ 0 ∧ i % cfg.test_conv ≠ 0) →
      is_satisfied cfg p c i = false)
    ∧ (∀ (cfg : Cfg) (p c : ℚ), is_satisfied cfg p c 0 = true)
    ∧ (∀ (St : Type) (upd : St → St) (objf : St → ℚ) (st0 : St) (k M : ℕ),
      1 ≤ k → (M = 0 ∨ k + 2 ≤ M) →
      objf (upd^[1] st0) ≤ fMax →
      (∀ j, 2 ≤ j → j ≤ k → objf (upd^[j] st0) ≤ objf (upd^[j - 1] st0)) →
      objf (upd^[k + 1] st0) > objf (upd^[k] st0) →
      (loopRun ⟨M, 0, 0⟩ upd objf (k + 2) ⟨st0, fMax, fMax, 0⟩).iter = k + 1) := by
  refine ⟨?_, ?_, ?_, ?_⟩
  · intro cfg p c i hi hmr himp hcap hskip
    simp only [is_satisfied]
    rw [if_neg (by omega), if_neg hskip, if_pos ⟨hmr, hi, himp⟩]
  · intro cfg p c i hi hcp hcap hskip
    by_cases hmr : cfg.min_residuals ≠ 0 ∧ 0 < i ∧ p - c < cfg.min_residuals
    · simp only [is_satisfied]
      rw [if_neg (by omega), if_neg hskip, if_pos hmr]
    · simp only [is_satisfied]
      rw [if_neg (by omega), if_neg hskip, if_neg hmr, if_pos ⟨hi, hcp⟩]
  · intro cfg p c
    exact is_satisfied_iter_zero cfg p c
  · intro St upd objf st0 k M hk hM h1 h2 h3
    have hchain : ∀ i, i < k + 1 →
        is_satisfied ⟨M, 0, 0⟩ (stopTraj upd objf st0 i).p_obj
          (stopTraj upd objf st0 i).c_obj (stopTraj upd objf st0 i).iter = true
        ∧ bodyStep ⟨M, 0, 0⟩ upd objf (stopTraj upd objf st0 i)
            = stopTraj upd objf st0 (i + 1) := by
      intro i hilt
      by_cases hi0 : i = 0
      · subst hi0
        constructor
        · exact is_satisfied_iter_zero _ _ _
        · simp [stopTraj, bodyStep]
      · have hi1 : 1 ≤ i := by omega
        have hguard : is_satisfied ⟨M, 0, 0⟩ (stopTraj upd objf st0 i).p_obj
            (stopTraj upd objf st0 i).c_obj (stopTraj upd objf st0 i).iter = true := by
          have hnc : ¬ (stopTraj upd objf st0 i).c_obj > (stopTraj upd objf st0 i).p_obj := by
            by_cases hione : i = 1
            · subst hione
              simp only [stopTraj, if_neg (by omega : (1:ℕ) ≠ 0), if_pos rfl]
              exact not_lt.mpr h1
            · simp only [stopTraj, if_neg hi0, if_neg hione]
              exact not_lt.mpr (h2 i (by omega) (by omega))
          simp only [stopTraj, if_neg hi0] at hnc ⊢
          simp only [is_satisfied]
          rw [if_neg (by simp; omega), if_neg (by simp), if_neg (by simp),
            if_neg (by simpa using fun _ => hnc)]
        refine ⟨hguard, ?_⟩
        have hstep : upd ((upd^[i]) st0) = (upd^[i + 1]) st0 :=
          (Function.iterate_succ_apply' upd i st0).symm
        simp only [stopTraj, if_neg hi0, bodyStep, if_neg (by omega : ¬ (i + 1 = 0))]
        simp only [if_neg (by omega : ¬ (i + 1 = 1)), if_pos rfl]
        simp [hstep]
    have hmain := loopRun_chain ⟨M, 0, 0⟩ upd objf (k + 1)
      (stopTraj upd objf st0) hchain 1
    have h0 : stopTraj upd objf st0 0 = ⟨st0, fMax, fMax, 0⟩ := by simp [stopTraj]
    have hkk : k + 1 + 1 = k + 2 := by omega
    rw [h0, hkk] at hmain
    rw [hmain]
    have hguardF : is_satisfied ⟨M, 0, 0⟩ (stopTraj upd objf st0 (k + 1)).p_obj
        (stopTraj upd objf st0 (k + 1)).c_obj (stopTraj upd objf st0 (k + 1)).iter
        = false := by
      simp only [stopTraj, if_neg (by omega : ¬ (k + 1 = 0)),
        if_neg (by omega : ¬ (k + 1 = 1))]
      simp only [is_satisfied]
      rw [if_neg (by simp; omega), if_neg (by simp), if_neg (by simp),
        if_pos ⟨by omega, by simpa using h3⟩]
    rw [loopRun, if_neg (by simp [hguardF])]
    simp [stopTraj, if_neg (by omega : ¬ (k + 1 = 0))]

/-- C6 witness: a concrete run (state `ℕ`, update `Nat.succ`) whose
objective values are `9, 8` at iterations 1, 2 and `100` at iteration 3:
the loop stops with `n_iter = 3 = k + 1` for `k = 2`. -/
theorem C6_witness :
    (loopRun ⟨0, 0, 0⟩ Nat.succ (fun st => if st ≤ 2 then 10 - st else 100) 4
      ⟨0, fMax, fMax, 0⟩).iter = 3 :=
  C6_objective_stopping_rule.2.2.2 ℕ Nat.succ
    (fun st => if st ≤ 2 then 10 - st else 100) 0 2 0 (by decide) (Or.inl rfl)
    (by with_unfolding_all decide)
    (by intro j h2 hk; interval_cases j <;> with_unfolding_all decide)
    (by with_unfolding_all decide)

/-- C5 counterexample: the claim "on all other iterations the stale current
and previous objective values are carried forward unchanged" is false.  With
`test_conv = 2` (cap 10, `min_residuals` unset, constant objective 1) the
state after 3 loop bodies has counter 3 — not a multiple of 2 — yet its
`p_obj` differs from the `p_obj` after 2 bodies: the previous-objective
value is refreshed on an iteration that is not a multiple of `test_conv`. -/
theorem C5_counterexample :
    (loopRun ⟨10, 0, 2⟩ (id : Unit → Unit) (fun _ => 1) 3 ⟨(), fMax, fMax, 0⟩).iter = 3
    ∧ 3 % 2 ≠ 0
    ∧ (loopRun ⟨10, 0, 2⟩ (id : Unit → Unit) (fun _ => 1) 3 ⟨(), fMax, fMax, 0⟩).p_obj
      ≠ (loopRun ⟨10, 0, 2⟩ (id : Unit → Unit) (fun _ => 1) 2 ⟨(), fMax, fMax, 0⟩).p_obj := by
  refine ⟨by with_unfolding_all decide, by decide, by with_unfolding_all decide⟩

/-- C5 (amended): with `test_conv = T` set, the objective is recomputed
exactly at loop bodies whose post-update counter is a multiple of `T` (and
on every body when `test_conv` is unset); on all other bodies the stale
current objective is carried forward.  The previous objective is refreshed
from the current value exactly on bodies entered with counter ≡ 0 (mod `T`)
— post-update counter ≡ 1 (mod `T`) — and carried forward otherwise.  The
monitor's check at a counter that is not a multiple of `T` reports continue
unconditionally provided the `max_iter` cap has not been reached. -/
theorem C5_test_conv_cadence :
    (∀ (St : Type) (upd : St → St) (objf : St → ℚ) (cfg : Cfg) (s : LoopSt St),
      (cfg.test_conv ≠ 0 → (s.iter + 1) % cfg.test_conv ≠ 0 →
        (bodyStep cfg upd objf s).c_obj = s.c_obj)
      ∧ ((cfg.test_conv = 0 ∨ (s.iter + 1) % cfg.test_conv = 0) →
        (bodyStep cfg upd objf s).c_obj = objf (upd s.st))
      ∧ (cfg.test_conv ≠ 0 → s.iter % cfg.test_conv ≠ 0 →
        (bodyStep cfg upd objf s).p_obj = s.p_obj)
      ∧ ((cfg.test_conv = 0 ∨ s.iter % cfg.test_conv = 0) →
        (bodyStep cfg upd objf s).p_obj = s.c_obj))
    ∧ (∀ (cfg : Cfg) (p c : ℚ) (i : ℕ), cfg.test_conv ≠ 0 → i % cfg.test_conv ≠ 0 →
      (cfg.max_iter = 0 ∨ i < cfg.max_iter) → is_satisfied cfg p c i = true) := by
  constructor
  · intro St upd objf cfg s
    refine ⟨?_, ?_, ?_, ?_⟩
    · intro htc hmod
      simp only [bodyStep]
      rw [if_neg (by tauto)]
    · intro h
      simp only [bodyStep]
      rw [if_pos h]
    · intro htc hmod
      simp only [bodyStep]
      rw [if_neg (by tauto)]
    · intro h
      simp only [bodyStep]
      rw [if_pos h]
  · intro cfg p c i htc hmod hcap
    simp only [is_satisfied]
    rw [if_neg (by omega), if_pos ⟨htc, hmod⟩]

/-- C5 witness: concrete instantiations of the amended cadence facts with
`test_conv = 2`: body entered at counter 2 keeps `c_obj` (post counter 3),
recomputes at post counter 4, refreshes `p_obj` at counter 2 and keeps it at
counter 3; the monitor's check at counter 3 continues. -/
theorem C5_witness :
    (bodyStep ⟨10, 0, 2⟩ (id : Unit → Unit) (fun _ => 7) ⟨(), 5, 4, 2⟩).c_obj = 4
    ∧ (bodyStep ⟨10, 0, 2⟩ (id : Unit → Unit) (fun _ => 7) ⟨(), 5, 4, 3⟩).c_obj = 7
    ∧ (bodyStep ⟨10, 0, 2⟩ (id : Unit → Unit) (fun _ => 7) ⟨(), 5, 4, 3⟩).p_obj = 5
    ∧ (bodyStep ⟨10, 0, 2⟩ (id : Unit → Unit) (fun _ => 7) ⟨(), 5, 4, 2⟩).p_obj = 4
    ∧ is_satisfied ⟨10, 0, 2⟩ 5 4 3 = true :=
  ⟨(C5_test_conv_cadence.1 Unit id (fun _ => 7) ⟨10, 0, 2⟩ ⟨(), 5, 4, 2⟩).1
      (by decide) (by decide),
   (C5_test_conv_cadence.1 Unit id (fun _ => 7) ⟨10, 0, 2⟩ ⟨(), 5, 4, 3⟩).2.1
      (Or.inr (by decide)),
   (C5_test_conv_cadence.1 Unit id (fun _ => 7) ⟨10, 0, 2⟩ ⟨(), 5, 4, 3⟩).2.2.1
      (by decide) (by decide),
   (C5_test_conv_cadence.1 Unit id (fun _ => 7) ⟨10, 0, 2⟩ ⟨(), 5, 4, 2⟩).2.2.2
      (Or.inr (by decide)),
   C5_test_conv_cadence.2 ⟨10, 0, 2⟩ 5 4 3 (by decide) (by decide) (by decide)⟩

/-- Characterisation of the selection fold `bestRun` after run 0: either no
remaining run replaces the carried best (`b` is strictly below every
remaining objective and the carried index is returned), or the returned
index points at the last remaining run attaining the minimum, its objective
is `≤ b`, minimal among the remaining runs, and strictly below every later
one. -/
theorem bestRun_spec :
    ∀ (rest : List ℚ) (i bi : ℕ) (b : ℚ), 0 < i →
      (bestRun rest i b bi = bi ∧ ∀ j, j < rest.length → b < rest.getD j 0)
      ∨ (∃ j, j < rest.length ∧ bestRun rest i b bi = i + j ∧ rest.getD j 0 ≤ b
          ∧ (∀ j2, j2 < rest.length → rest.getD j 0 ≤ rest.getD j2 0)
          ∧ (∀ j2, j2 < rest.length → j < j2 → rest.getD j 0 < rest.getD j2 0)) := by
  intro rest
  induction rest with
  | nil =>
    intro i bi b _
    left
    exact ⟨rfl, fun j hj => absurd hj (by simp)⟩
  | cons o rest ih =>
    intro i bi b hi
    by_cases ho : o ≤ b
    · have hb : bestRun (o :: rest) i b bi = bestRun rest (i + 1) o i := by
        rw [bestRun, if_pos (Or.inl ho)]
      rcases ih (i + 1) i o (by omega) with ⟨heq, hall⟩ | ⟨j, hj, heq, hle, hmin, hstrict⟩
      · right
        refine ⟨0, by simp, ?_, ?_, ?_, ?_⟩
        · rw [hb, heq]; omega
        · simpa using ho
        · intro j2 hj2
          match j2 with
          | 0 => simp
          | j2 + 1 =>
            simp only [List.getD_cons_zero, List.getD_cons_succ]
            exact le_of_lt (hall j2 (by simpa using hj2))
        · intro j2 hj2 hlt
          match j2 with
          | 0 => omega
          | j2 + 1 =>
            simp only [List.getD_cons_zero, List.getD_cons_succ]
            exact hall j2 (by simpa using hj2)
      · right
        refine ⟨j + 1, by simpa using hj, ?_, ?_, ?_, ?_⟩
        · rw [hb, heq]; omega
        · simp only [List.getD_cons_succ]
          exact le_trans hle ho
        · intro j2 hj2
          match j2 with
          | 0 => simpa using hle
          | j2 + 1 =>
            simp only [List.getD_cons_succ]
            exact hmin j2 (by simpa using hj2)
        · intro j2 hj2 hlt
          match j2 with
          | 0 => omega
          | j2 + 1 =>
            simp only [List.getD_cons_succ]
            exact hstrict j2 (by simpa using hj2) (by omega)
    · have hb : bestRun (o :: rest) i b bi = bestRun rest (i + 1) b bi := by
        rw [bestRun, if_neg (by push_neg; exact ⟨lt_of_not_le ho, by omega⟩)]
      rcases ih (i + 1) bi b (by omega) with ⟨heq, hall⟩ | ⟨j, hj, heq, hle, hmin, hstrict⟩
      · left
        refine ⟨by rw [hb, heq], ?_⟩
        intro j hjl
        match j with
        | 0 => simpa using lt_of_not_le ho
        | j + 1 =>
          simp only [List.getD_cons_succ]
          exact hall j (by simpa using hjl)
      · right
        refine ⟨j + 1, by simpa using hj, ?_, ?_, ?_, ?_⟩
        · rw [hb, heq]; omega
        · simpa using hle
        · intro j2 hj2
          match j2 with
          | 0 =>
            simp only [List.getD_cons_zero, List.getD_cons_succ]
            exact le_of_lt (lt_of_le_of_lt hle (lt_of_not_le ho))
          | j2 + 1 =>
            simp only [List.getD_cons_succ]
            exact hmin j2 (by simpa using hj2)
        · intro j2 hj2 hlt
          match j2 with
          | 0 => omega
          | j2 + 1 =>
            simp only [List.getD_cons_succ]
            exact hstrict j2 (by simpa using hj2) (by omega)

/-- C1 counterexample: with three runs ending at equal objectives
`[5, 5, 5]`, the retained model is run 2's, not run 0's — the replacement
test `c_obj <= best_obj or run == 0` (line 209) replaces on ties, so the
claimed first-run tie-break is false. -/
theorem C1_counterexample :
    selectBest [(5 : ℚ), 5, 5] = 2 ∧ selectBest [(5 : ℚ), 5, 5] ≠ 0 := by
  constructor
  · with_unfolding_all decide
  · with_unfolding_all decide

/-- C1 (amended): over a multi-run session the retained run attains the
lowest final objective; when several runs tie at the lowest objective the
LAST such run's model is retained (every later run has a strictly larger
objective); the spec's example `[5, 2, 8]` selects run 1 (objective 2); a
later run replaces the current best only if its objective is ≤ the best so
far, and run 0 always seeds the best regardless of its value. -/
theorem C1_best_model_selection :
    (∀ objs : List ℚ, objs ≠ [] →
      selectBest objs < objs.length
      ∧ (∀ j, j < objs.length → objs.getD (selectBest objs) 0 ≤ objs.getD j 0)
      ∧ (∀ j, j < objs.length → selectBest objs < j →
          objs.getD (selectBest objs) 0 < objs.getD j 0))
    ∧ selectBest [(5 : ℚ), 2, 8] = 1
    ∧ (∀ (o : ℚ) (rest : List ℚ) (i : ℕ) (b : ℚ) (bi : ℕ), 0 < i → ¬ o ≤ b →
        bestRun (o :: rest) i b bi = bestRun rest (i + 1) b bi)
    ∧ (∀ (o : ℚ) (rest : List ℚ) (b : ℚ) (bi : ℕ),
        bestRun (o :: rest) 0 b bi = bestRun rest 1 o 0) := by
  refine ⟨?_, by with_unfolding_all decide, ?_, ?_⟩
  · intro objs hne
    match objs with
    | [] => exact absurd rfl hne
    | o :: rest =>
      have hsel : selectBest (o :: rest) = bestRun rest 1 o 0 := by
        rw [selectBest, bestRun, if_pos (Or.inr rfl)]
      rcases bestRun_spec rest 1 0 o (by omega) with
        ⟨heq, hall⟩ | ⟨j, hj, heq, hle, hmin, hstrict⟩
      · rw [hsel, heq]
        refine ⟨by simp, ?_, ?_⟩
        · intro j hjl
          match j with
          | 0 => simp
          | j + 1 =>
            simp only [List.getD_cons_zero, List.getD_cons_succ]
            exact le_of_lt (hall j (by simpa using hjl))
        · intro j hjl hlt
          match j with
          | 0 => omega
          | j + 1 =>
            simp only [List.getD_cons_zero, List.getD_cons_succ]
            exact hall j (by simpa using hjl)
      · rw [hsel, heq]
        have hj1 : 1 + j = j + 1 := by omega
        rw [hj1]
        refine ⟨by simpa using hj, ?_, ?_⟩
        · intro j2 hj2
          match j2 with
          | 0 =>
            simp only [List.getD_cons_zero, List.getD_cons_succ]
            exact hle
          | j2 + 1 =>
            simp only [List.getD_cons_succ]
            exact hmin j2 (by simpa using hj2)
        · intro j2 hj2 hlt
          match j2 with
          | 0 => omega
          | j2 + 1 =>
            simp only [List.getD_cons_succ]
            exact hstrict j2 (by simpa using hj2) (by omega)
  · intro o rest i b bi hi ho
    rw [bestRun, if_neg (by push_neg; exact ⟨lt_of_not_le ho, by omega⟩)]
  · intro o rest b bi
    rw [bestRun, if_pos (Or.inr rfl)]

/-- C1 witness: the general selection properties applied to the spec's
example `[5, 2, 8]` (nonempty): the selected index 1 is in range, its
objective 2 is minimal, and the later run 2 is strictly worse. -/
theorem C1_witness :
    selectBest [(5 : ℚ), 2, 8] < 3
    ∧ [(5 : ℚ), 2, 8].getD (selectBest [(5 : ℚ), 2, 8]) 0 ≤ [(5 : ℚ), 2, 8].getD 0 0
    ∧ (selectBest [(5 : ℚ), 2, 8] < 2 →
        [(5 : ℚ), 2, 8].getD (selectBest [(5 : ℚ), 2, 8]) 0 < [(5 : ℚ), 2, 8].getD 2 0) :=
  ⟨(C1_best_model_selection.1 [(5 : ℚ), 2, 8] (List.cons_ne_nil _ _)).1,
   (C1_best_model_selection.1 [(5 : ℚ), 2, 8] (List.cons_ne_nil _ _)).2.1 0 (by decide),
   fun h => (C1_best_model_selection.1 [(5 : ℚ), 2, 8] (List.cons_ne_nil _ _)).2.2 2
     (by decide) h⟩

/-- C2 counterexample: at rank 1 the update numerator does NOT reduce
exactly to `D[:, 0]`: with `D = [[5]]`, `sigma = 1`, `alpha = [[1]]` (the
prior defaults to a nonzero random matrix and `sigma` defaults to 1), the
numerator is `5 - 0 - 1·1 = 4 ≠ 5` — the prior term `sigma·alpha[:, n]` is
still subtracted even though the other-components term vanishes. -/
theorem C2_counterexample :
    numerW (m := 1) (r := 1) (Matrix.of fun _ _ => 5) (Matrix.of fun _ _ => 1)
        (Matrix.of fun _ _ => 1) 1 (Matrix.of fun _ _ => 2) 0 0
      ≠ (Matrix.of fun _ _ => (5 : ℚ)) 0 0 := by
  with_unfolding_all decide

/-- C2 (amended): when rank = 1 the set of other component indices is empty
for the single component, so the subtraction term `W[:, nn]·C[nn, n]`
(resp. `E[n, nn]·H[nn, :]`) vanishes and the update numerator for W's column
(resp. H's row) reduces exactly to `D[:, 0] - sigma·alpha[:, 0]`
(resp. `F[0, :] - sigma·beta[0, :]`); it equals `D[:, 0]` (resp. `F[0, :]`)
precisely when the prior term is zero. -/
theorem C2_rank_one_numerator {m n : ℕ}
    (D : Matrix (Fin m) (Fin 1) ℚ) (C : Matrix (Fin 1) (Fin 1) ℚ)
    (alpha : Matrix (Fin m) (Fin 1) ℚ) (sigW : ℚ) (W : Matrix (Fin m) (Fin 1) ℚ)
    (F : Matrix (Fin 1) (Fin n) ℚ) (E : Matrix (Fin 1) (Fin 1) ℚ)
    (beta : Matrix (Fin 1) (Fin n) ℚ) (sigH : ℚ) (H : Matrix (Fin 1) (Fin n) ℚ) :
    (∀ i, numerW D C alpha sigW W 0 i = D i 0 - sigW * alpha i 0)
    ∧ (∀ j, numerH F E beta sigH H 0 j = F 0 j - sigH * beta 0 j) := by
  have herase : (Finset.univ.erase (0 : Fin 1)) = (∅ : Finset (Fin 1)) := by decide
  constructor
  · intro i
    simp [numerW, herase]
  · intro j
    simp [numerH, herase]

/-- C8: `Icm.objective` computes the sum of squared entries of `V - W·H`,
and it is a pure function of its inputs: identical arguments give identical
results. -/
theorem C8_objective_formula {m r n : ℕ} (V : Matrix (Fin m) (Fin n) ℚ)
    (W : Matrix (Fin m) (Fin r) ℚ) (H : Matrix (Fin r) (Fin n) ℚ) :
    objective V W H = ∑ i, ∑ j, (V i j - ∑ kc, W i kc * H kc j) ^ 2
    ∧ (∀ (V2 : Matrix (Fin m) (Fin n) ℚ) (W2 : Matrix (Fin m) (Fin r) ℚ)
        (H2 : Matrix (Fin r) (Fin n) ℚ), V2 = V → W2 = W → H2 = H →
        objective V2 W2 H2 = objective V W H) := by
  constructor
  · simp [objective, matSum, power, Matrix.sub_apply, Matrix.mul_apply]
  · intro V2 W2 H2 hV hW hH
    rw [hV, hW, hH]

/-- A concrete 1×1 matrix with single entry 3, for witnesses. -/
def mat3 : Matrix (Fin 1) (Fin 1) ℚ := Matrix.of fun _ _ => 3

/-- A concrete 1×1 matrix with single entry 1, for witnesses. -/
def mat1 : Matrix (Fin 1) (Fin 1) ℚ := Matrix.of fun _ _ => 1

/-- C8 witness: the formula and purity instantiated at `V = [[3]]`,
`W = H = [[1]]`. -/
theorem C8_witness :
    objective mat3 mat1 mat1
      = ∑ i : Fin 1, ∑ j : Fin 1, (mat3 i j - ∑ kc : Fin 1, mat1 i kc * mat1 kc j) ^ 2
    ∧ objective mat3 mat1 mat1 = objective mat3 mat1 mat1 :=
  ⟨(C8_objective_formula mat3 mat1 mat1).1,
   (C8_objective_formula mat3 mat1 mat1).2 mat3 mat1 mat1 rfl rfl rfl⟩

/-- C9: with `track_factor = True`, `n_run = 1` and `track_error = False`,
the tracker is `None` (it is constructed only when `track_factor` holds with
`n_run > 1`, or `track_error` holds), yet `factorize` dereferences it at
line 205 at the end of the first run, so the call raises an AttributeError
instead of returning a model — for every target matrix, seeding, remaining
configuration and fuel. -/
theorem C9_tracker_attribute_error {m r n : ℕ} (s : Session m r n)
    (seedW : ℕ → Matrix (Fin m) (Fin r) ℚ) (seedH : ℕ → Matrix (Fin r) (Fin n) ℚ)
    (fuel : ℕ) (htf : s.track_factor = true) (hnr : s.n_run = 1)
    (hte : s.track_error = false) :
    factorize s seedW seedH fuel
      = Except.error "AttributeError: NoneType has no attribute track_factor" := by
  have htr : trackerSome s = false := by
    simp [trackerSome, htf, hnr, hte]
  simp [factorize, hnr, List.range_succ, runFold, runOnce, hte, htf, htr]

/-- A concrete 1×1 session with `track_factor` set, a single run and no
error tracking. -/
def sessC9 : Session 1 1 1 where
  V := Matrix.of fun _ _ => 1
  alpha := Matrix.of fun _ _ => 0
  beta := Matrix.of fun _ _ => 0
  theta := 0
  k := 0
  sigma := 1
  iiter := 1
  cfg := ⟨1, 0, 0⟩
  n_run := 1
  track_factor := true
  track_error := false

/-- C9 witness: the concrete 1×1 session fails with the AttributeError. -/
theorem C9_witness :
    factorize sessC9 (fun _ => Matrix.of fun _ _ => 1) (fun _ => Matrix.of fun _ _ => 1) 1
      = Except.error "AttributeError: NoneType has no attribute track_factor" :=
  C9_tracker_attribute_error sessC9 _ _ 1 rfl rfl rfl

/-! ## Nonnegativity of the factors -/

/-- A column write of W clamps at zero, so it preserves entrywise
nonnegativity. -/
theorem updateW_col_nonneg {m r : ℕ} (C : Matrix (Fin r) (Fin r) ℚ)
    (D : Matrix (Fin m) (Fin r) ℚ) (alpha : Matrix (Fin m) (Fin r) ℚ) (sigma : ℚ)
    (W : Matrix (Fin m) (Fin r) ℚ) (nc : Fin r) (hW : ∀ i kc, 0 ≤ W i kc) :
    ∀ i kc, 0 ≤ updateW_col C D alpha sigma W nc i kc := by
  intro i kc
  simp only [updateW_col, Matrix.of_apply]
  split
  · exact le_max_right _ 0
  · exact hW i kc

/-- The full inner W loop preserves entrywise nonnegativity. -/
theorem updateW_nonneg {m r : ℕ} (C : Matrix (Fin r) (Fin r) ℚ)
    (D : Matrix (Fin m) (Fin r) ℚ) (alpha : Matrix (Fin m) (Fin r) ℚ) (sigma : ℚ)
    (iiter : ℕ) (W : Matrix (Fin m) (Fin r) ℚ) (hW : ∀ i kc, 0 ≤ W i kc) :
    ∀ i kc, 0 ≤ updateW C D alpha sigma iiter W i kc := by
  have hfold : ∀ (l : List (Fin r)) (Wc : Matrix (Fin m) (Fin r) ℚ),
      (∀ i kc, 0 ≤ Wc i kc) →
      ∀ i kc, 0 ≤ (l.foldl (updateW_col C D alpha sigma) Wc) i kc := by
    intro l
    induction l with
    | nil => intro Wc hWc; exact hWc
    | cons a l ih =>
      intro Wc hWc
      exact ih _ (updateW_col_nonneg C D alpha sigma Wc a hWc)
  rw [updateW]
  induction iiter generalizing W with
  | zero => exact hW
  | succ it ih =>
    rw [Function.iterate_succ_apply]
    exact ih _ (hfold _ W hW)

/-- A row write of H clamps at zero, so it preserves entrywise
nonnegativity. -/
theorem updateH_row_nonneg {r n : ℕ} (E : Matrix (Fin r) (Fin r) ℚ)
    (F : Matrix (Fin r) (Fin n) ℚ) (beta : Matrix (Fin r) (Fin n) ℚ) (sigma : ℚ)
    (H : Matrix (Fin r) (Fin n) ℚ) (nc : Fin r) (hH : ∀ a b, 0 ≤ H a b) :
    ∀ a b, 0 ≤ updateH_row E F beta sigma H nc a b := by
  intro a b
  simp only [updateH_row, Matrix.of_apply]
  split
  · exact le_max_right _ 0
  · exact hH a b

/-- The full inner H loop preserves entrywise nonnegativity. -/
theorem updateH_nonneg {r n : ℕ} (E : Matrix (Fin r) (Fin r) ℚ)
    (F : Matrix (Fin r) (Fin n) ℚ) (beta : Matrix (Fin r) (Fin n) ℚ) (sigma : ℚ)
    (iiter : ℕ) (H : Matrix (Fin r) (Fin n) ℚ) (hH : ∀ a b, 0 ≤ H a b) :
    ∀ a b, 0 ≤ updateH E F beta sigma iiter H a b := by
  have hfold : ∀ (l : List (Fin r)) (Hc : Matrix (Fin r) (Fin n) ℚ),
      (∀ a b, 0 ≤ Hc a b) →
      ∀ a b, 0 ≤ (l.foldl (updateH_row E F beta sigma) Hc) a b := by
    intro l
    induction l with
    | nil => intro Hc hHc; exact hHc
    | cons x l ih =>
      intro Hc hHc
      exact ih _ (updateH_row_nonneg E F beta sigma Hc x hHc)
  rw [updateH]
  induction iiter generalizing H with
  | zero => exact hH
  | succ it ih =>
    rw [Function.iterate_succ_apply]
    exact ih _ (hfold _ H hH)

/-- Entrywise nonnegativity of both factors. -/
def StNonneg {m r n : ℕ} (st : RunSt m r n) : Prop :=
  (∀ i kc, 0 ≤ st.W i kc) ∧ (∀ a b, 0 ≤ st.H a b)

/-- One full `Icm.update` sweep preserves nonnegativity of W and H: every
block write clamps at zero. -/
theorem update_preserves_nonneg {m r n : ℕ} (V : Matrix (Fin m) (Fin n) ℚ)
    (alpha : Matrix (Fin m) (Fin r) ℚ) (beta : Matrix (Fin r) (Fin n) ℚ)
    (theta kp : ℚ) (iiter : ℕ) (v : ℚ) (st : RunSt m r n) (hst : StNonneg st) :
    StNonneg (update V alpha beta theta kp iiter v st) := by
  constructor
  · exact updateW_nonneg _ _ alpha st.sigma iiter st.W hst.1
  · exact updateH_nonneg _ _ beta _ iiter st.H hst.2

/-- The iteration loop preserves any invariant of the factorization state
that each update preserves. -/
theorem loopRun_invariant {St : Type} (cfg : Cfg) (upd : St → St) (objf : St → ℚ)
    (P : St → Prop) (hupd : ∀ st, P st → P (upd st)) :
    ∀ (fuel : ℕ) (s : LoopSt St), P s.st → P (loopRun cfg upd objf fuel s).st := by
  intro fuel
  induction fuel with
  | zero => intro s hs; exact hs
  | succ f ih =>
    intro s hs
    rw [loopRun]
    split
    · exact ih _ (hupd _ hs)
    · exact hs

/-- A successful run returns a model with nonnegative factors, provided its
seeds are nonnegative. -/
theorem runOnce_nonneg {m r n : ℕ} (s : Session m r n)
    (seedW : ℕ → Matrix (Fin m) (Fin r) ℚ) (seedH : ℕ → Matrix (Fin r) (Fin n) ℚ)
    (fuel run : ℕ) (sigma : ℚ)
    (hsW : ∀ i j, 0 ≤ seedW run i j) (hsH : ∀ a b, 0 ≤ seedH run a b) :
    ∀ mdl, runOnce s seedW seedH fuel run sigma = Except.ok mdl →
      (∀ i j, 0 ≤ mdl.W i j) ∧ (∀ a b, 0 ≤ mdl.H a b) := by
  intro mdl hok
  rw [runOnce] at hok
  split at hok
  · exact absurd hok (by simp)
  · split at hok
    · exact absurd hok (by simp)
    · have hinv := loopRun_invariant s.cfg
        (update s.V s.alpha s.beta s.theta s.k s.iiter (vHalf s.V))
        (fun st => objective s.V st.W st.H) StNonneg
        (fun st hst => update_preserves_nonneg s.V s.alpha s.beta s.theta s.k
          s.iiter (vHalf s.V) st hst)
        fuel ⟨⟨seedW run, seedH run, sigma⟩, fMax, fMax, 0⟩ ⟨hsW, hsH⟩
      have hmdl : mdl = ⟨(loopRun s.cfg
          (update s.V s.alpha s.beta s.theta s.k s.iiter (vHalf s.V))
          (fun st => objective s.V st.W st.H) fuel
          ⟨⟨seedW run, seedH run, sigma⟩, fMax, fMax, 0⟩).st.W,
        (loopRun s.cfg (update s.V s.alpha s.beta s.theta s.k s.iiter (vHalf s.V))
          (fun st => objective s.V st.W st.H) fuel
          ⟨⟨seedW run, seedH run, sigma⟩, fMax, fMax, 0⟩).st.H, _, _, _⟩ :=
        (Except.ok.injEq _ _ ▸ hok).symm
      rw [hmdl]
      exact ⟨hinv.1, hinv.2⟩

/-- The run fold only ever stores models with nonnegative factors, provided
all seeds are nonnegative. -/
theorem runFold_nonneg {m r n : ℕ} (s : Session m r n)
    (seedW : ℕ → Matrix (Fin m) (Fin r) ℚ) (seedH : ℕ → Matrix (Fin r) (Fin n) ℚ)
    (fuel : ℕ) (hsW : ∀ run i j, 0 ≤ seedW run i j)
    (hsH : ∀ run a b, 0 ≤ seedH run a b) :
    ∀ (runs : List ℕ) (acc : ℚ × ℚ × Option (Model m r n)),
      (∀ mdl, acc.2.2 = some mdl → (∀ i j, 0 ≤ mdl.W i j) ∧ (∀ a b, 0 ≤ mdl.H a b)) →
      ∀ res, runFold s seedW seedH fuel runs acc = Except.ok res →
      ∀ mdl, res.2.2 = some mdl → (∀ i j, 0 ≤ mdl.W i j) ∧ (∀ a b, 0 ≤ mdl.H a b) := by
  intro runs
  induction runs with
  | nil =>
    intro acc hacc res hres
    rw [runFold] at hres
    cases hres
    exact hacc
  | cons run rest ih =>
    intro acc hacc res hres
    obtain ⟨sigma, bObj, best⟩ := acc
    rw [runFold] at hres
    split at hres
    · exact absurd hres (by simp)
    · rename_i mdl0 hrun
      have hmdl0 := runOnce_nonneg s seedW seedH fuel run sigma
        (hsW run) (hsH run) mdl0 hrun
      split at hres
      · refine ih _ ?_ res hres
        intro mdl hm
        simp only at hm
        cases hm
        exact hmdl0
      · exact ih (mdl0.sigma, bObj, best) hacc res hres

/-- C7: shape and nonnegativity postcondition.  For every session (target V
of shape m × n, rank r encoded in the types: the returned `Model m r n`
carries `W : Matrix (Fin m) (Fin r) ℚ` and `H : Matrix (Fin r) (Fin n) ℚ`)
whose seeding returns nonnegative factors for every run, a successful
`factorize` returns a model whose W and H are entrywise ≥ 0: each block
update writes `max(…, 0)` into the new column/row, so nonnegativity is
preserved by every update, every iteration and every run. -/
theorem C7_shape_and_nonneg {m r n : ℕ} (s : Session m r n)
    (seedW : ℕ → Matrix (Fin m) (Fin r) ℚ) (seedH : ℕ → Matrix (Fin r) (Fin n) ℚ)
    (fuel : ℕ) (hsW : ∀ run i j, 0 ≤ seedW run i j)
    (hsH : ∀ run a b, 0 ≤ seedH run a b) :
    ∀ mdl, factorize s seedW seedH fuel = Except.ok mdl →
      (∀ i j, 0 ≤ mdl.W i j) ∧ (∀ a b, 0 ≤ mdl.H a b) := by
  intro mdl hok
  rw [factorize] at hok
  cases hfold : runFold s seedW seedH fuel (List.range s.n_run) (s.sigma, fMax, none) with
  | error e => rw [hfold] at hok; exact absurd hok (by simp)
  | ok acc =>
    rw [hfold] at hok
    obtain ⟨sg, bo, best⟩ := acc
    cases best with
    | none => exact absurd hok (by simp)
    | some b =>
      have hb : mdl = b := by
        simpa using hok.symm
      rw [hb]
      exact runFold_nonneg s seedW seedH fuel hsW hsH (List.range s.n_run)
        (s.sigma, fMax, none) (fun _ hm => absurd hm (by simp)) (sg, bo, some b)
        hfold b rfl

/-- A concrete 1×1 session with no tracking, for the C7 witness. -/
def sessC7 : Session 1 1 1 where
  V := Matrix.of fun _ _ => 1
  alpha := Matrix.of fun _ _ => 0
  beta := Matrix.of fun _ _ => 0
  theta := 0
  k := 0
  sigma := 1
  iiter := 1
  cfg := ⟨1, 0, 0⟩
  n_run := 1
  track_factor := false
  track_error := false

/-- C7 witness: the concrete session succeeds (`isOk`), and the theorem
applied to it with all-ones seeds yields nonnegative factors. -/
theorem C7_witness :
    (factorize sessC7 (fun _ => Matrix.of fun _ _ => 1)
      (fun _ => Matrix.of fun _ _ => 1) 1).isOk = true
    ∧ (∀ mdl, factorize sessC7 (fun _ => Matrix.of fun _ _ => 1)
        (fun _ => Matrix.of fun _ _ => 1) 1 = Except.ok mdl →
        (∀ i j, 0 ≤ mdl.W i j) ∧ (∀ a b, 0 ≤ mdl.H a b)) :=
  ⟨by with_unfolding_all decide,
   C7_shape_and_nonneg sessC7 (fun _ => Matrix.of fun _ _ => 1)
     (fun _ => Matrix.of fun _ _ => 1) 1
     (fun _ _ _ => zero_le_one) (fun _ _ _ => zero_le_one)⟩

/-! ## Sigma nonnegativity (C3) -/

/-- The entrywise-product sum equals the trace of `A · Bᵀ`. -/
theorem matSum_multiply_trace {m n : ℕ} (A B : Matrix (Fin m) (Fin n) ℚ) :
    matSum (multiply A B) = Matrix.trace (A * B.transpose) := by
  simp [matSum, multiply, Matrix.trace, Matrix.diag, Matrix.mul_apply]

/-- `sum(W ⊙ (W·(H·Hᵗ)))` is the sum of squared entries of `W·H`. -/
theorem matSum_multiply_WC {m r n : ℕ} (W : Matrix (Fin m) (Fin r) ℚ)
    (H : Matrix (Fin r) (Fin n) ℚ) :
    matSum (multiply W (W * (H * H.transpose)))
      = matSum (multiply (W * H) (W * H)) := by
  rw [matSum_multiply_trace, matSum_multiply_trace, Matrix.transpose_mul,
    Matrix.transpose_mul, Matrix.transpose_transpose]
  simp [Matrix.mul_assoc]

/-- `sum(W ⊙ (V·Hᵗ))` is the sum of entries of `(W·H) ⊙ V`. -/
theorem matSum_multiply_VD {m r n : ℕ} (W : Matrix (Fin m) (Fin r) ℚ)
    (V : Matrix (Fin m) (Fin n) ℚ) (H : Matrix (Fin r) (Fin n) ℚ) :
    matSum (multiply W (V * H.transpose)) = matSum (multiply (W * H) V) := by
  rw [matSum_multiply_trace, matSum_multiply_trace, Matrix.transpose_mul,
    Matrix.transpose_transpose, Matrix.mul_assoc]

/-- The residual expansion: the squared Frobenius norm of `V - W·H` in
terms of entrywise-product sums. -/
theorem objective_expand {m r n : ℕ} (V : Matrix (Fin m) (Fin n) ℚ)
    (W : Matrix (Fin m) (Fin r) ℚ) (H : Matrix (Fin r) (Fin n) ℚ) :
    objective V W H = matSum (multiply V V) + matSum (multiply (W * H) (W * H))
      - 2 * matSum (multiply (W * H) V) := by
  simp only [objective, power, matSum, multiply, Matrix.of_apply, Matrix.sub_apply]
  have h : ∀ (a b : ℚ), (a - b) ^ 2 = a * a + b * b - 2 * (b * a) := by
    intro a b; ring
  simp_rw [h, Finset.sum_sub_distrib, Finset.sum_add_distrib, Finset.mul_sum]

/-- The objective is a sum of squares, hence nonnegative. -/
theorem objective_nonneg {m r n : ℕ} (V : Matrix (Fin m) (Fin n) ℚ)
    (W : Matrix (Fin m) (Fin r) ℚ) (H : Matrix (Fin r) (Fin n) ℚ) :
    0 ≤ objective V W H := by
  simp only [objective, matSum, power, Matrix.of_apply]
  exact Finset.sum_nonneg fun i _ => Finset.sum_nonneg fun j _ => sq_nonneg _

/-- The key identity behind the sigma update: with `C = H·Hᵗ`, `D = V·Hᵗ`
computed from the same `H` and `v = sum(V ⊙ V)/2`, the numerator term
`v + sum(W ⊙ (W·C − 2·D))/2` equals `‖V − W·H‖_F² / 2`. -/
theorem sigma_numerator_identity {m r n : ℕ} (V : Matrix (Fin m) (Fin n) ℚ)
    (W : Matrix (Fin m) (Fin r) ℚ) (H : Matrix (Fin r) (Fin n) ℚ) :
    vHalf V + matSum (multiply W (W * (H * H.transpose)
        - (2 : ℚ) • (V * H.transpose))) / 2
      = objective V W H / 2 := by
  have hsub : matSum (multiply W (W * (H * H.transpose)
        - (2 : ℚ) • (V * H.transpose)))
      = matSum (multiply W (W * (H * H.transpose)))
        - 2 * matSum (multiply W (V * H.transpose)) := by
    simp only [multiply, matSum, Matrix.sub_apply, Matrix.smul_apply,
      smul_eq_mul, Matrix.of_apply]
    have h : ∀ (w a b : ℚ), w * (a - 2 * b) = w * a - 2 * (w * b) := by
      intro w a b; ring
    simp_rw [h, Finset.sum_sub_distrib, Finset.mul_sum]
  rw [hsub, matSum_multiply_WC, matSum_multiply_VD, objective_expand, vHalf]
  ring

/-- C3: assuming `theta ≥ 0` and `k ≥ 0`, after every call to `Icm.update`
the noise scalar sigma is ≥ 0: its numerator
`theta + v + sum(W ⊙ (W·C − 2D))/2` equals `theta + ‖V − W·H‖_F²/2` (with
`v = sum(V ⊙ V)/2` and `C = H·Hᵗ`, `D = V·Hᵗ` from the same H), a sum of
nonnegative quantities, and its denominator `m·n/2 + k + 1` is positive. -/
theorem C3_sigma_nonneg {m r n : ℕ} (V : Matrix (Fin m) (Fin n) ℚ)
    (alpha : Matrix (Fin m) (Fin r) ℚ) (beta : Matrix (Fin r) (Fin n) ℚ)
    (theta kp : ℚ) (iiter : ℕ) (v : ℚ) (st : RunSt m r n)
    (htheta : 0 ≤ theta) (hkp : 0 ≤ kp) (hv : v = vHalf V) :
    0 ≤ (update V alpha beta theta kp iiter v st).sigma
    ∧ (∀ (W : Matrix (Fin m) (Fin r) ℚ) (H : Matrix (Fin r) (Fin n) ℚ),
        theta + v + matSum (multiply W (W * (H * H.transpose)
            - (2 : ℚ) • (V * H.transpose))) / 2
          = theta + objective V W H / 2) := by
  have hiden : ∀ (W : Matrix (Fin m) (Fin r) ℚ) (H : Matrix (Fin r) (Fin n) ℚ),
      theta + v + matSum (multiply W (W * (H * H.transpose)
          - (2 : ℚ) • (V * H.transpose))) / 2
        = theta + objective V W H / 2 := by
    intro W H
    rw [hv, add_assoc, sigma_numerator_identity]
  refine ⟨?_, hiden⟩
  have hupd : (update V alpha beta theta kp iiter v st).sigma
      = sigmaUpdate n theta kp v
          (updateW (st.H * st.H.transpose) (V * st.H.transpose) alpha st.sigma
            iiter st.W)
          (st.H * st.H.transpose) (V * st.H.transpose) := rfl
  rw [hupd, sigmaUpdate]
  apply div_nonneg
  · rw [hiden]
    have := objective_nonneg V
      (updateW (st.H * st.H.transpose) (V * st.H.transpose) alpha st.sigma
        iiter st.W) st.H
    linarith
  · have hmn : (0 : ℚ) ≤ (m : ℚ) * (n : ℚ) / 2 := by positivity
    linarith

/-- A concrete 1×1 zero matrix, for witnesses. -/
def mat0 : Matrix (Fin 1) (Fin 1) ℚ := Matrix.of fun _ _ => 0

/-- C3 witness: the theorem applied to the concrete 1×1 state
(`V = [[3]]`, `W = H = [[1]]`, zero priors, `theta = k = 0`, `sigma = 1`,
`v = vHalf V`). -/
theorem C3_witness :
    0 ≤ (update mat3 mat0 mat0 0 0 1 (vHalf mat3) ⟨mat1, mat1, 1⟩).sigma
    ∧ (∀ (W : Matrix (Fin 1) (Fin 1) ℚ) (H : Matrix (Fin 1) (Fin 1) ℚ),
        0 + vHalf mat3 + matSum (multiply W (W * (H * H.transpose)
            - (2 : ℚ) • (mat3 * H.transpose))) / 2
          = 0 + objective mat3 W H / 2) :=
  C3_sigma_nonneg mat3 mat0 mat0 0 0 1 (vHalf mat3) ⟨mat1, mat1, 1⟩
    (le_refl 0) (le_refl 0) rfl

end Nimfa2.Icm
